import Mathlib

/-!
Shallow embedding of the chunking / translation pipeline of `pdf2ja`
(`src/markdown_chunker.py`, `src/translator.py`, `src/translate_markdown.py`,
`src/fix_markdown.py`; the chunker class is duplicated verbatim across the
files, so a single embedding covers all copies).

Documents and chunks are modelled as `List Char`.  Python's fallible
operations are modelled with `Option` / `Except`: the `IndexError` that
`merged_chunks[-1]` raises on an empty list is `none`.
-/

/-- A chunk of Markdown text, as in the Python code a plain string. -/
abbrev Chunk := List Char

/-- The two-newline separator `"\n\n"` used for every join in the code. -/
def nl2 : Chunk := ['\n', '\n']

/-- Whitespace as recognised by Python's `str.strip()` on the ASCII range
(space, tab, newline, carriage return, vertical tab, form feed). -/
def isSpace (c : Char) : Bool :=
  c = ' ' || c = '\t' || c = '\n' || c = '\r' || c = '\x0B' || c = '\x0C'

/-- Right strip: remove trailing whitespace (second half of `str.strip()`). -/
def rstrip (s : List Char) : List Char :=
  (s.reverse.dropWhile isSpace).reverse

/-- Python's `str.strip()`: drop leading and trailing whitespace. -/
def strip (s : List Char) : List Char :=
  rstrip (s.dropWhile isSpace)

/-- Length of the leading run of `'#'` characters. -/
def countHashes : List Char → Nat
  | '#' :: rest => countHashes rest + 1
  | _ => 0

/-- Does the string begin with the ATX heading pattern `#{1,6} ` matched by
the lookahead regex `(?=^#{1,6} .*)`?  The regex matches a position iff some
run of 1–6 `'#'` is followed by a space there; since a space can only follow
the full leading hash run, this is: the leading hash run has length 1–6 and
is followed by a space. -/
def isHeadingStart (s : List Char) : Bool :=
  decide (1 ≤ countHashes s) && decide (countHashes s ≤ 6) &&
    (s.get? (countHashes s) == some ' ')

/-- Worker for the multiline zero-width split: a cut happens right after a
newline whenever the remaining text starts with a heading.  `acc` holds the
current segment reversed. -/
def splitGo (acc : List Char) : List Char → List (List Char)
  | [] => [acc.reverse]
  | c :: rest =>
    if c = '\n' && isHeadingStart rest then
      (c :: acc).reverse :: splitGo [] rest
    else
      splitGo (c :: acc) rest

/-- `re.split(r"(?=^#{1,6} .*)", text, flags=re.MULTILINE)`: split before
every heading that starts a line.  A heading at position 0 produces a leading
empty segment, exactly as Python's `re.split` does for a zero-width match at
the start. -/
def reSplitHeadings (text : List Char) : List (List Char) :=
  if isHeadingStart text then [] :: splitGo [] text else splitGo [] text

/-- `[chunk.strip() for chunk in chunks if chunk.strip()]` applied to the
regex split: strip each segment and drop the ones that strip to nothing. -/
def header_chunks (text : List Char) : List Chunk :=
  ((reSplitHeadings text).map strip).filter (fun c => !c.isEmpty)

/-- `merged_chunks[-1] += "\n\n" + chunk`: append `"\n\n" + chunk` onto the
last element; on an empty list this is Python's `IndexError`, hence `none`. -/
def appendToLast (chunk : Chunk) : List Chunk → Option (List Chunk)
  | [] => none
  | [last] => some [last ++ nl2 ++ chunk]
  | c :: rest => (appendToLast chunk rest).map (c :: ·)

/-- The `while chunks:` loop of `_merge_small_chunks`.  Each iteration of the
Python loop removes exactly one element (net) from the deque, so the loop runs
exactly `len(chunks)` times; the fuel argument is that exact bound and the
zero-fuel branch is unreachable when called with `fuel = queue.length`. -/
def merge_loop (minSize : Nat) : Nat → List Chunk → List Chunk → Option (List Chunk)
  | _, [], merged => some merged
  | 0, _ :: _, _ => none
  | fuel + 1, chunk :: rest, merged =>
    if minSize < chunk.length then
      merge_loop minSize fuel rest (merged ++ [chunk])
    else
      match rest with
      | r :: rs => merge_loop minSize fuel ((chunk ++ nl2 ++ r) :: rs) merged
      | [] => appendToLast chunk merged

/-- `MarkdownChunker._merge_small_chunks`: lists of at most one chunk are
returned unchanged, otherwise the deque loop runs.  `none` models the
`IndexError` raised by `merged_chunks[-1]` on an empty output list. -/
def merge_small_chunks (minSize : Nat) (small_chunks : List Chunk) : Option (List Chunk) :=
  if small_chunks.length ≤ 1 then some small_chunks
  else merge_loop minSize small_chunks.length small_chunks []

/-- `MarkdownChunker.split_markdown`: short-circuit on small inputs, else
regex split at headings, strip-and-filter, then merge undersized chunks. -/
def split_markdown (maxSize minSize : Nat) (text : List Char) : Option (List Chunk) :=
  if text.length ≤ maxSize then some [text]
  else merge_small_chunks minSize (header_chunks text)

/-- `"\n\n".join(chunks)`. -/
def joinSep : List Chunk → Chunk
  | [] => []
  | [c] => c
  | c :: rest => c ++ nl2 ++ joinSep rest

/-- `MarkdownTranslator.translate_chunk` (identical shape in
`MarkdownFixer.fix_chunk`): call the external transform; on success return the
stripped response text, on any exception return the original chunk. -/
def translate_chunk {ε : Type} (call : Chunk → Except ε Chunk) (chunk : Chunk) : Chunk :=
  match call chunk with
  | Except.ok t => strip t
  | Except.error _ => chunk

/-- The per-chunk transform loop: each chunk in order through
`translate_chunk`. -/
def translate_chunks {ε : Type} (call : Chunk → Except ε Chunk)
    (chunks : List Chunk) : List Chunk :=
  chunks.map (translate_chunk call)

/-- `"\n\n".join(translated_chunks)`: final assembly of the output document. -/
def assemble_chunks (chunks : List Chunk) : Chunk :=
  joinSep chunks

/-- `MarkdownTranslator.translate_text` / `translate_file` body: split, map
the transform over the chunks, join with `"\n\n"`. -/
def translate_text {ε : Type} (call : Chunk → Except ε Chunk)
    (maxSize minSize : Nat) (text : List Char) : Option (List Char) :=
  (split_markdown maxSize minSize text).map
    (fun chunks => assemble_chunks (translate_chunks call chunks))

/-- Observable events of the driving loop: the transform call for chunk `i`,
and the rate-limit sleep. -/
inductive Ev where
  | call : Nat → Ev
  | sleep : Ev
deriving DecidableEq

/-- The sequence of calls and sleeps performed by the driving loop
(`for i, chunk in enumerate(chunks): ...; if i < len(chunks) - 1 and delay > 0:
time.sleep(delay)`). -/
def drive_events (delay : ℚ) (chunks : List Chunk) : List Ev :=
  (List.range chunks.length).flatMap
    (fun i => Ev.call i ::
      if i < chunks.length - 1 ∧ 0 < delay then [Ev.sleep] else [])

/-- The heading pattern, semantically: 1–6 hashes, a space, anything. -/
def HeadsWith (s : List Char) : Prop :=
  ∃ k t, 1 ≤ k ∧ k ≤ 6 ∧ s = List.replicate k '#' ++ ' ' :: t

theorem countHashes_cons_ne {a : Char} (t : List Char) (h : a ≠ '#') :
    countHashes (a :: t) = 0 := by
  unfold countHashes
  split
  · rename_i heq; cases heq; exact absurd rfl h
  · rfl

theorem countHashes_le_length (s : List Char) : countHashes s ≤ s.length := by
  induction s with
  | nil => simp [countHashes]
  | cons a t ih =>
    by_cases h : a = '#'
    · subst h; simpa [countHashes] using ih
    · simp [countHashes_cons_ne t h]

theorem take_countHashes (s : List Char) :
    s.take (countHashes s) = List.replicate (countHashes s) '#' := by
  induction s with
  | nil => simp [countHashes]
  | cons a t ih =>
    by_cases h : a = '#'
    · subst h
      simp [countHashes, List.replicate_succ, List.take_succ_cons, ih]
    · simp [countHashes_cons_ne t h]

theorem countHashes_replicate_append (k : Nat) (t : List Char) :
    countHashes (List.replicate k '#' ++ t) = k + countHashes t := by
  induction k with
  | zero => simp
  | succ k ih => simp [List.replicate_succ, countHashes, ih]; omega

theorem isHeadingStart_iff (s : List Char) :
    isHeadingStart s = true ↔ HeadsWith s := by
  constructor
  · intro h
    simp only [isHeadingStart, Bool.and_eq_true, decide_eq_true_eq, beq_iff_eq] at h
    obtain ⟨⟨h1, h6⟩, hsp⟩ := h
    refine ⟨countHashes s, s.drop (countHashes s + 1), h1, h6, ?_⟩
    have hlt : countHashes s < s.length := by
      rcases List.get?_eq_some.mp hsp with ⟨hl, -⟩
      exact hl
    calc s = s.take (countHashes s) ++ s.drop (countHashes s) := (List.take_append_drop _ _).symm
      _ = List.replicate (countHashes s) '#' ++ s.drop (countHashes s) := by
            rw [take_countHashes]
      _ = List.replicate (countHashes s) '#' ++ ' ' :: s.drop (countHashes s + 1) := by
            rw [List.drop_eq_getElem_cons hlt]
            have hg : s[countHashes s] = ' ' := by
              rw [List.get?_eq_getElem?, List.getElem?_eq_getElem hlt] at hsp
              simpa using hsp
            rw [hg]
  · rintro ⟨k, t, h1, h6, rfl⟩
    have hc : countHashes (List.replicate k '#' ++ ' ' :: t) = k := by
      rw [countHashes_replicate_append]
      simp [countHashes_cons_ne t (by decide : (' ' : Char) ≠ '#')]
    simp only [isHeadingStart, hc, Bool.and_eq_true, decide_eq_true_eq, beq_iff_eq]
    refine ⟨⟨h1, h6⟩, ?_⟩
    rw [List.get?_eq_getElem?, List.getElem?_append_right (by simp), List.length_replicate]
    simp

theorem splitGo_flatten : ∀ (cs : List Char) (acc : List Char),
    (splitGo acc cs).flatten = acc.reverse ++ cs := by
  intro cs
  induction cs with
  | nil => intro acc; simp [splitGo]
  | cons c rest ih =>
    intro acc
    by_cases h : (c = '\n' && isHeadingStart rest) = true
    · simp [splitGo, h, ih]
    · simp only [splitGo, h, if_false, Bool.false_eq_true, ih]
      simp

theorem reSplitHeadings_flatten (text : List Char) :
    (reSplitHeadings text).flatten = text := by
  unfold reSplitHeadings
  split <;> simp [splitGo_flatten]

theorem splitGo_ne_nil : ∀ (cs : List Char) (acc : List Char), splitGo acc cs ≠ [] := by
  intro cs
  induction cs with
  | nil => intro acc; simp [splitGo]
  | cons c rest ih =>
    intro acc
    by_cases h : (c = '\n' && isHeadingStart rest) = true
    · simp [splitGo, h]
    · simp only [splitGo, h, if_false, Bool.false_eq_true]
      exact ih _

/-- The first segment of `splitGo acc cs` is `acc.reverse ++ p` for a prefix
`p` of `cs`; either `p` is all of `cs`, or `p` ends in the newline before the
next heading. -/
theorem splitGo_head_structure : ∀ (cs : List Char) (acc : List Char),
    ∃ p q rest', cs = p ++ q ∧ splitGo acc cs = (acc.reverse ++ p) :: rest' ∧
      (q = [] ∨ p.getLast? = some '\n') := by
  intro cs
  induction cs with
  | nil =>
    intro acc
    exact ⟨[], [], [], by simp, by simp [splitGo], Or.inl rfl⟩
  | cons c rest ih =>
    intro acc
    by_cases h : (c = '\n' && isHeadingStart rest) = true
    · refine ⟨[c], rest, splitGo [] rest, by simp, ?_, ?_⟩
      · simp [splitGo, h]
      · right
        have hc : c = '\n' := by
          have := (Bool.and_eq_true _ _).mp h
          exact of_decide_eq_true this.1
        simp [hc]
    · obtain ⟨p, q, rest', hpq, heq, hlast⟩ := ih (c :: acc)
      refine ⟨c :: p, q, rest', by simp [hpq], ?_, ?_⟩
      · simp only [splitGo, h, if_false, Bool.false_eq_true, heq]
        simp
      · rcases hlast with h1 | h2
        · exact Or.inl h1
        · right
          rcases p with _ | ⟨x, p'⟩
          · simp at h2
          · simpa using h2

/-- If the text starts with a heading, so does the first segment the split
produces from it. -/
theorem splitGo_head_heads (cs : List Char) (hh : HeadsWith cs)
    (p q : List Char) (rest' : List (List Char))
    (hpq : cs = p ++ q) (hlast : q = [] ∨ p.getLast? = some '\n') :
    HeadsWith p := by
  obtain ⟨k, t, h1, h6, hcs⟩ := hh
  rcases hlast with rfl | hnl
  · rw [List.append_nil] at hpq; rw [hpq] at hcs; exact ⟨k, t, h1, h6, hcs⟩
  · have hsplit : p ++ q = (List.replicate k '#' ++ [' ']) ++ t := by
      rw [← hpq, hcs]; simp
    rcases List.append_eq_append_iff.mp hsplit with ⟨a', ha, -⟩ | ⟨c', hp, -⟩
    · exfalso
      have hmem : '\n' ∈ p := List.mem_of_mem_getLast? (by rw [hnl]; exact rfl)
      have : '\n' ∈ List.replicate k '#' ++ [' '] := by
        rw [ha]; exact List.mem_append_left _ hmem
      rcases List.mem_append.mp this with hr | hs
      · exact absurd (List.eq_of_mem_replicate hr) (by decide)
      · simp at hs
    · exact ⟨k, c', h1, h6, by rw [hp]; simp⟩

/-- Every segment after the first starts with a heading: cuts happen exactly
before headings. -/
theorem splitGo_tail_heads : ∀ (cs : List Char) (acc : List Char),
    ∀ s ∈ (splitGo acc cs).tail, HeadsWith s := by
  intro cs
  induction cs with
  | nil => intro acc s hs; simp [splitGo] at hs
  | cons c rest ih =>
    intro acc s hs
    by_cases h : (c = '\n' && isHeadingStart rest) = true
    · simp only [splitGo, h, if_true, List.tail_cons] at hs
      have hh : HeadsWith rest := by
        have := (Bool.and_eq_true _ _).mp h
        exact (isHeadingStart_iff rest).mp this.2
      obtain ⟨p, q, rest', hpq, heq, hlast⟩ := splitGo_head_structure rest []
      rw [heq] at hs
      rcases List.mem_cons.mp hs with heq2 | htail
      · have hp := splitGo_head_heads rest hh p q rest' hpq hlast
        rw [heq2]
        simpa using hp
      · have := ih []
        rw [heq] at this
        exact this s htail
    · simp only [splitGo, h, if_false, Bool.false_eq_true] at hs
      exact ih _ s hs

theorem rstrip_append (l₁ l₂ : List Char) :
    rstrip (l₁ ++ l₂) = if rstrip l₂ = [] then rstrip l₁ else l₁ ++ rstrip l₂ := by
  have hiff : ((l₂.reverse.dropWhile isSpace).isEmpty = true) ↔ rstrip l₂ = [] := by
    rw [List.isEmpty_iff, rstrip]
    constructor
    · intro h; rw [h]; rfl
    · intro h
      have := congrArg List.reverse h
      simpa using this
  by_cases h : rstrip l₂ = []
  · rw [if_pos h]
    unfold rstrip
    rw [List.reverse_append, List.dropWhile_append, if_pos (hiff.mpr h)]
  · rw [if_neg h]
    unfold rstrip
    rw [List.reverse_append, List.dropWhile_append,
      if_neg (fun hc => h (hiff.mp (by simpa using hc)))]
    simp

theorem rstrip_cons_head (a : Char) (l : List Char) :
    rstrip (a :: l) = [] ∨ ∃ t, rstrip (a :: l) = a :: t := by
  have : (a :: l) = [a] ++ l := rfl
  rw [this, rstrip_append]
  by_cases h : rstrip l = []
  · rw [if_pos h]
    by_cases ha : isSpace a = true
    · left; simp [rstrip, List.dropWhile, ha]
    · right; exact ⟨[], by simp [rstrip, List.dropWhile, ha]⟩
  · rw [if_neg h]
    right; exact ⟨rstrip l, rfl⟩

theorem rstrip_all_hashes (k : Nat) : rstrip (List.replicate k '#') = List.replicate k '#' := by
  cases k with
  | zero => rfl
  | succ n =>
    unfold rstrip
    rw [List.reverse_replicate, List.replicate_succ, List.dropWhile_cons_of_neg (by decide)]
    simp [← List.replicate_succ]

/-- `strip` of a heading segment: either everything after the hashes was
whitespace (leaving the bare hash run), or the space after the hashes
survives. -/
theorem strip_heads (s : List Char) (hh : HeadsWith s) :
    (∃ k, 1 ≤ k ∧ k ≤ 6 ∧ strip s = List.replicate k '#') ∨
    (∃ k t, 1 ≤ k ∧ k ≤ 6 ∧ strip s = List.replicate k '#' ++ ' ' :: t) := by
  obtain ⟨k, t, h1, h6, rfl⟩ := hh
  have hdw : (List.replicate k '#' ++ ' ' :: t).dropWhile isSpace
      = List.replicate k '#' ++ ' ' :: t := by
    obtain ⟨n, rfl⟩ := Nat.exists_eq_add_of_le h1
    rw [List.replicate_add]
    simp only [List.replicate_one, List.append_assoc, List.singleton_append]
    exact List.dropWhile_cons_of_neg (by decide)
  unfold strip
  rw [hdw, rstrip_append]
  by_cases h : rstrip (' ' :: t) = []
  · rw [if_pos h, rstrip_all_hashes]
    exact Or.inl ⟨k, h1, h6, rfl⟩
  · rw [if_neg h]
    rcases rstrip_cons_head ' ' t with h0 | ⟨t', ht'⟩
    · exact absurd h0 h
    · rw [ht']
      exact Or.inr ⟨k, t', h1, h6, rfl⟩

/-- A chunk "still shows its heading": it starts with a run of 1–6 hashes
followed by a space, a newline, or the end of the chunk. -/
def headingish (c : List Char) : Bool :=
  decide (1 ≤ countHashes c) && decide (countHashes c ≤ 6) &&
    (decide (c.length = countHashes c) ||
      c.get? (countHashes c) == some ' ' || c.get? (countHashes c) == some '\n')

/-- Propositional form of `headingish`, convenient for the merge invariant. -/
def HeadingishP (c : List Char) : Prop :=
  ∃ k, 1 ≤ k ∧ k ≤ 6 ∧ c.take k = List.replicate k '#' ∧
    (c.length = k ∨ c.get? k = some ' ' ∨ c.get? k = some '\n')

theorem countHashes_headingish_aux (s : List Char) (k : Nat)
    (htake : s.take k = List.replicate k '#')
    (hafter : s.length = k ∨ s.get? k = some ' ' ∨ s.get? k = some '\n') :
    countHashes s = k := by
  have hk : k ≤ s.length := by
    by_contra hlt
    push_neg at hlt
    have := congrArg List.length htake
    simp at this
    omega
  have hc : s = List.replicate k '#' ++ s.drop k := by
    rw [← htake, List.take_append_drop]
  rw [hc, countHashes_replicate_append]
  have h0 : countHashes (s.drop k) = 0 := by
    rcases hafter with hl | hsp | hnl
    · rw [List.drop_of_length_le (by omega)]; rfl
    · have hlt : k < s.length := by
        rcases List.get?_eq_some.mp hsp with ⟨hh, -⟩; exact hh
      rw [List.drop_eq_get_cons hlt]
      have : s.get ⟨k, hlt⟩ = ' ' := by
        rw [List.get?_eq_getElem?, List.getElem?_eq_getElem hlt] at hsp
        simpa using hsp
      rw [this]
      exact countHashes_cons_ne _ (by decide)
    · have hlt : k < s.length := by
        rcases List.get?_eq_some.mp hnl with ⟨hh, -⟩; exact hh
      rw [List.drop_eq_get_cons hlt]
      have : s.get ⟨k, hlt⟩ = '\n' := by
        rw [List.get?_eq_getElem?, List.getElem?_eq_getElem hlt] at hnl
        simpa using hnl
      rw [this]
      exact countHashes_cons_ne _ (by decide)
  omega

theorem headingish_iff (c : List Char) : headingish c = true ↔ HeadingishP c := by
  constructor
  · intro h
    simp only [headingish, Bool.and_eq_true, Bool.or_eq_true, decide_eq_true_eq,
      beq_iff_eq] at h
    obtain ⟨⟨h1, h6⟩, hafter⟩ := h
    exact ⟨countHashes c, h1, h6, take_countHashes c, by tauto⟩
  · rintro ⟨k, h1, h6, htake, hafter⟩
    have hk := countHashes_headingish_aux c k htake hafter
    simp only [headingish, hk, Bool.and_eq_true, Bool.or_eq_true, decide_eq_true_eq,
      beq_iff_eq]
    exact ⟨⟨h1, h6⟩, by tauto⟩

/-- The stripped form of a heading segment is `headingish`. -/
theorem strip_headingishP (s : List Char) (hh : HeadsWith s) : HeadingishP (strip s) := by
  rcases strip_heads s hh with ⟨k, h1, h6, heq⟩ | ⟨k, t, h1, h6, heq⟩
  · refine ⟨k, h1, h6, ?_, Or.inl ?_⟩
    · rw [heq, List.take_of_length_le (by simp)]
    · rw [heq]; simp
  · refine ⟨k, h1, h6, ?_, Or.inr (Or.inl ?_)⟩
    · rw [heq, List.take_append_of_le_length (by simp), List.take_of_length_le (by simp)]
    · rw [heq, List.get?_eq_getElem?, List.getElem?_append_right (by simp),
        List.length_replicate]
      simp

/-- Appending `"\n\n" ++ d` to a `headingish` chunk keeps it `headingish`:
this is the only way the merge pass ever extends a chunk on the right. -/
theorem headingishP_append (c d : List Char) (h : HeadingishP c) :
    HeadingishP (c ++ nl2 ++ d) := by
  obtain ⟨k, h1, h6, htake, hafter⟩ := h
  rcases hafter with hl | hget
  · have hc : c = List.replicate k '#' := by
      rw [← htake]
      exact (List.take_of_length_le (by omega)).symm
    refine ⟨k, h1, h6, ?_, Or.inr (Or.inr ?_)⟩
    · rw [hc, List.append_assoc, List.take_append_of_le_length (by simp),
        List.take_of_length_le (by simp)]
    · rw [hc, List.append_assoc, List.get?_eq_getElem?,
        List.getElem?_append_right (by simp), List.length_replicate]
      simp [nl2]
  · have hlt : k < c.length := by
      rcases hget with hsp | hnl
      · rcases List.get?_eq_some.mp hsp with ⟨hh, -⟩; exact hh
      · rcases List.get?_eq_some.mp hnl with ⟨hh, -⟩; exact hh
    refine ⟨k, h1, h6, ?_, Or.inr ?_⟩
    · rw [List.append_assoc, List.take_append_of_le_length (by omega), htake]
    · rw [List.append_assoc, List.get?_eq_getElem?, List.getElem?_append_left hlt,
        ← List.get?_eq_getElem?]
      exact hget

theorem appendToLast_eq (chunk : Chunk) :
    ∀ (merged : List Chunk) (h : merged ≠ []),
      appendToLast chunk merged
        = some (merged.dropLast ++ [merged.getLast h ++ nl2 ++ chunk]) := by
  intro merged
  induction merged with
  | nil => intro h; exact absurd rfl h
  | cons m rest ih =>
    intro h
    cases rest with
    | nil => simp [appendToLast]
    | cons m2 rest2 =>
      have hne : m2 :: rest2 ≠ [] := by simp
      simp only [appendToLast, ih hne, Option.map_some]
      simp [List.getLast_cons hne]

theorem appendToLast_isSome (chunk : Chunk) (merged : List Chunk) (h : merged ≠ []) :
    (appendToLast chunk merged).isSome = true := by
  rw [appendToLast_eq chunk merged h]
  rfl

theorem joinSep_cons_cons (a b : Chunk) (t : List Chunk) :
    joinSep (a :: b :: t) = a ++ nl2 ++ joinSep (b :: t) := rfl

theorem joinSep_fold (c r : Chunk) (rs : List Chunk) :
    joinSep ((c ++ nl2 ++ r) :: rs) = joinSep (c :: r :: rs) := by
  cases rs with
  | nil => simp [joinSep]
  | cons x xs => simp [joinSep_cons_cons, joinSep]

/-- Once something has been finalized, the loop can no longer hit the
`IndexError`: the tail-merge always has a target. -/
theorem merge_loop_some_of_ne_nil (m : Nat) :
    ∀ (fuel : Nat) (queue merged : List Chunk), queue.length ≤ fuel → merged ≠ [] →
      (merge_loop m fuel queue merged).isSome = true := by
  intro fuel
  induction fuel with
  | zero =>
    intro queue merged hlen hne
    cases queue with
    | nil => simp [merge_loop]
    | cons c rest => simp at hlen
  | succ fuel ih =>
    intro queue merged hlen hne
    cases queue with
    | nil => simp [merge_loop]
    | cons chunk rest =>
      simp only [merge_loop]
      split
      · exact ih rest _ (by simpa using Nat.le_of_succ_le_succ (by simpa using hlen))
          (by simp)
      · cases rest with
        | nil => exact appendToLast_isSome chunk merged hne
        | cons r rs =>
          exact ih _ merged (by simpa using Nat.le_of_succ_le_succ (by simpa using hlen)) hne

/-- With an empty output list, the loop succeeds exactly when the total
joined content exceeds the minimum size. -/
theorem merge_loop_isSome_iff (m : Nat) :
    ∀ (fuel : Nat) (queue : List Chunk), queue ≠ [] → queue.length ≤ fuel →
      ((merge_loop m fuel queue []).isSome = true ↔ m < (joinSep queue).length) := by
  intro fuel
  induction fuel with
  | zero =>
    intro queue hne hlen
    cases queue with
    | nil => exact absurd rfl hne
    | cons c rest => simp at hlen
  | succ fuel ih =>
    intro queue hne hlen
    cases queue with
    | nil => exact absurd rfl hne
    | cons chunk rest =>
      simp only [merge_loop]
      by_cases hbig : m < chunk.length
      · rw [if_pos hbig]
        constructor
        · intro _
          calc m < chunk.length := hbig
            _ ≤ (joinSep (chunk :: rest)).length := by
                cases rest with
                | nil => simp [joinSep]
                | cons r rs => simp [joinSep_cons_cons]
        · intro _
          exact merge_loop_some_of_ne_nil m fuel rest [chunk]
            (by simpa using Nat.le_of_succ_le_succ (by simpa using hlen)) (by simp)
      · rw [if_neg hbig]
        cases rest with
        | nil =>
          simp only [appendToLast]
          constructor
          · intro h; simp at h
          · intro h; exact absurd (by simpa [joinSep] using h) hbig
        | cons r rs =>
          rw [ih ((chunk ++ nl2 ++ r) :: rs) (by simp)
            (by simpa using Nat.le_of_succ_le_succ (by simpa using hlen))]
          rw [joinSep_fold]

/-- Every chunk the loop finalizes is above the minimum size (the tail-merge
only makes the last finalized chunk longer). -/
theorem merge_loop_sizes (m : Nat) :
    ∀ (fuel : Nat) (queue merged res : List Chunk),
      merge_loop m fuel queue merged = some res →
      (∀ s ∈ merged, m < s.length) → ∀ s ∈ res, m < s.length := by
  intro fuel
  induction fuel with
  | zero =>
    intro queue merged res hres hmer
    cases queue with
    | nil => simp [merge_loop] at hres; rw [← hres]; exact hmer
    | cons c rest => simp [merge_loop] at hres
  | succ fuel ih =>
    intro queue merged res hres hmer
    cases queue with
    | nil => simp [merge_loop] at hres; rw [← hres]; exact hmer
    | cons chunk rest =>
      simp only [merge_loop] at hres
      by_cases hbig : m < chunk.length
      · rw [if_pos hbig] at hres
        refine ih rest _ res hres ?_
        intro s hs
        rcases List.mem_append.mp hs with h1 | h2
        · exact hmer s h1
        · rw [List.mem_singleton.mp h2]; exact hbig
      · rw [if_neg hbig] at hres
        cases rest with
        | nil =>
          by_cases hne : merged = []
          · subst hne
            have hres2 : appendToLast chunk [] = some res := hres
            simp [appendToLast] at hres2
          · have hres2 : appendToLast chunk merged = some res := hres
            rw [appendToLast_eq chunk merged hne] at hres2
            have hres' := Option.some.inj hres2
            rw [← hres']
            intro s hs
            rcases List.mem_append.mp hs with h1 | h2
            · exact hmer s (List.dropLast_sublist merged |>.mem h1)
            · rw [List.mem_singleton.mp h2]
              have := hmer _ (List.getLast_mem hne)
              calc m < (merged.getLast hne).length := this
                _ ≤ _ := by simp
        | cons r rs => exact ih _ merged res hres hmer

/-- Filtering out whitespace, the loop's output is the concatenation of what
was already finalized and what was still queued: merging inserts only the
whitespace separator. -/
theorem merge_loop_content (m : Nat) :
    ∀ (fuel : Nat) (queue merged res : List Chunk),
      merge_loop m fuel queue merged = some res →
      res.flatten.filter (fun c => !isSpace c)
        = (merged.flatten ++ queue.flatten).filter (fun c => !isSpace c) := by
  intro fuel
  induction fuel with
  | zero =>
    intro queue merged res hres
    cases queue with
    | nil => simp [merge_loop] at hres; rw [← hres]; simp
    | cons c rest => simp [merge_loop] at hres
  | succ fuel ih =>
    intro queue merged res hres
    cases queue with
    | nil => simp [merge_loop] at hres; rw [← hres]; simp
    | cons chunk rest =>
      simp only [merge_loop] at hres
      by_cases hbig : m < chunk.length
      · rw [if_pos hbig] at hres
        rw [ih rest _ res hres]
        simp
      · rw [if_neg hbig] at hres
        cases rest with
        | nil =>
          by_cases hne2 : merged = []
          · subst hne2
            have hres2 : appendToLast chunk [] = some res := hres
            simp [appendToLast] at hres2
          · have hne : merged ≠ [] := hne2
            have hres2 : appendToLast chunk merged = some res := hres
            rw [appendToLast_eq chunk merged hne] at hres2
            have hres' := Option.some.inj hres2
            rw [← hres']
            have hsplit : merged.dropLast ++ [merged.getLast hne] = merged :=
              List.dropLast_append_getLast hne
            calc (merged.dropLast ++ [merged.getLast hne ++ nl2 ++ chunk]).flatten.filter
                  (fun c => !isSpace c)
                = (merged.dropLast.flatten ++ (merged.getLast hne ++ nl2 ++ chunk)).filter
                  (fun c => !isSpace c) := by simp
              _ = ((merged.dropLast.flatten ++ merged.getLast hne) ++ chunk).filter
                  (fun c => !isSpace c) := by
                    simp only [List.filter_append]
                    have : nl2.filter (fun c => !isSpace c) = [] := by decide
                    simp [this]
              _ = ((merged.dropLast ++ [merged.getLast hne]).flatten ++ chunk).filter
                  (fun c => !isSpace c) := by simp
              _ = (merged.flatten ++ [chunk].flatten).filter (fun c => !isSpace c) := by
                    rw [hsplit]; simp
        | cons r rs =>
          rw [ih _ merged res hres]
          simp only [List.filter_append, List.flatten_cons, List.append_assoc]
          have : nl2.filter (fun c => !isSpace c) = [] := by decide
          simp [this]

/-- The merge loop preserves "every chunk but the first is headingish":
forward folds prepend onto a successor (keeping the successor's group
leader), the tail fold appends on the right, and appends of
`"\n\n" ++ _` preserve `headingish`. -/
theorem merge_loop_tail_headingish (m : Nat) :
    ∀ (fuel : Nat) (queue merged res : List Chunk),
      merge_loop m fuel queue merged = some res →
      (∀ s ∈ (merged ++ queue).tail, HeadingishP s) →
      ∀ s ∈ res.tail, HeadingishP s := by
  intro fuel
  induction fuel with
  | zero =>
    intro queue merged res hres hinv
    cases queue with
    | nil =>
      simp [merge_loop] at hres
      rw [← hres]
      simpa using hinv
    | cons c rest => simp [merge_loop] at hres
  | succ fuel ih =>
    intro queue merged res hres hinv
    cases queue with
    | nil =>
      simp [merge_loop] at hres
      rw [← hres]
      simpa using hinv
    | cons chunk rest =>
      simp only [merge_loop] at hres
      by_cases hbig : m < chunk.length
      · rw [if_pos hbig] at hres
        refine ih rest (merged ++ [chunk]) res hres ?_
        intro s hs
        refine hinv s ?_
        rw [List.append_cons merged chunk rest]
        exact hs
      · rw [if_neg hbig] at hres
        cases rest with
        | nil =>
          by_cases hne : merged = []
          · subst hne
            have hres2 : appendToLast chunk [] = some res := hres
            simp [appendToLast] at hres2
          · have hres2 : appendToLast chunk merged = some res := hres
            rw [appendToLast_eq chunk merged hne] at hres2
            have hres' := Option.some.inj hres2
            rw [← hres']
            rcases merged with - | ⟨m0, mrest⟩
            · exact absurd rfl hne
            rcases mrest with - | ⟨m1, ms⟩
            · intro s hs; simp at hs
            · have hne2 : m1 :: ms ≠ [] := by simp
              intro s hs
              rw [List.dropLast_cons₂, List.getLast_cons hne2] at hs
              have hP : ∀ u ∈ (m1 :: ms) ++ [chunk], HeadingishP u := by
                intro u hu
                refine hinv u ?_
                simpa using hu
              simp only [List.cons_append, List.tail_cons] at hs
              rcases List.mem_append.mp hs with h1 | h2
              · exact hP s (List.mem_append_left _
                  ((List.dropLast_sublist (m1 :: ms)).mem h1))
              · rw [List.mem_singleton.mp h2]
                refine headingishP_append _ chunk ?_
                exact hP _ (List.mem_append_left _ (List.getLast_mem hne2))
        | cons r rs =>
          refine ih _ merged res hres ?_
          rcases merged with - | ⟨m0, mrest⟩
          · intro s hs
            simp only [List.nil_append, List.tail_cons] at hs ⊢
            exact hinv s (by simp [List.mem_cons.mpr (Or.inr hs)])
          · intro s hs
            simp only [List.cons_append, List.tail_cons] at hs ⊢
            have hPold : ∀ u ∈ mrest ++ chunk :: r :: rs, HeadingishP u := by
              intro u hu
              exact hinv u (by simpa using hu)
            rcases List.mem_append.mp hs with h1 | h2
            · exact hPold s (List.mem_append_left _ h1)
            · rcases List.mem_cons.mp h2 with h3 | h4
              · rw [h3]
                refine headingishP_append chunk r ?_
                exact hPold chunk (List.mem_append_right _ (List.mem_cons_self _ _))
              · exact hPold s (List.mem_append_right _
                  (List.mem_cons_of_mem _ (List.mem_cons_of_mem _ h4)))

theorem mem_tail_filter {α : Type} (p : α → Bool) :
    ∀ (M : List α) (s : α), s ∈ (M.filter p).tail → s ∈ M.tail := by
  intro M s h
  cases M with
  | nil => simp at h
  | cons a t =>
    rw [List.filter_cons] at h
    by_cases hp : p a = true
    · rw [if_pos hp] at h
      simp only [List.tail_cons] at h ⊢
      exact List.mem_of_mem_filter h
    · rw [if_neg hp] at h
      simp only [List.tail_cons]
      exact List.mem_of_mem_filter (List.mem_of_mem_tail h)

/-- Every stripped, surviving chunk after the first one begins with its
heading (possibly with the heading's trailing space stripped away). -/
theorem header_chunks_tail_headingish (text : List Char) :
    ∀ s ∈ (header_chunks text).tail, HeadingishP s := by
  intro s hs
  have hsegs : ∀ u ∈ (reSplitHeadings text).tail, HeadsWith u := by
    intro u hu
    unfold reSplitHeadings at hu
    by_cases hh : isHeadingStart text = true
    · rw [if_pos hh] at hu
      simp only [List.tail_cons] at hu
      obtain ⟨p, q, rest', hpq, heq, hlast⟩ := splitGo_head_structure text []
      rw [heq] at hu
      rcases List.mem_cons.mp hu with heq2 | htail
      · have hht : HeadsWith text := (isHeadingStart_iff text).mp hh
        have := splitGo_head_heads text hht p q rest' hpq hlast
        rw [heq2]
        simpa using this
      · have := splitGo_tail_heads text []
        rw [heq] at this
        exact this u htail
    · rw [if_neg hh] at hu
      exact splitGo_tail_heads text [] u hu
  have hs2 : s ∈ ((reSplitHeadings text).map strip).tail :=
    mem_tail_filter _ _ s hs
  rw [← List.map_tail] at hs2
  rcases List.mem_map.mp hs2 with ⟨u, hu, rfl⟩
  exact strip_headingishP u (hsegs u hu)

theorem filter_nonspace_dropWhile (s : List Char) :
    (s.dropWhile isSpace).filter (fun c => !isSpace c)
      = s.filter (fun c => !isSpace c) := by
  induction s with
  | nil => rfl
  | cons a t ih =>
    by_cases ha : isSpace a = true
    · rw [List.dropWhile_cons_of_pos ha, ih, List.filter_cons, if_neg (by simp [ha])]
    · rw [List.dropWhile_cons_of_neg ha]

theorem filter_nonspace_strip (s : List Char) :
    (strip s).filter (fun c => !isSpace c) = s.filter (fun c => !isSpace c) := by
  unfold strip rstrip
  rw [List.filter_reverse, filter_nonspace_dropWhile, List.filter_reverse,
    List.reverse_reverse, filter_nonspace_dropWhile]

/-- The strip-and-filter step loses only whitespace. -/
theorem header_chunks_content (text : List Char) :
    (header_chunks text).flatten.filter (fun c => !isSpace c)
      = text.filter (fun c => !isSpace c) := by
  unfold header_chunks
  rw [List.flatten_filter_not_isEmpty]
  have hmap : ∀ L : List (List Char),
      (L.map strip).flatten.filter (fun c => !isSpace c)
        = L.flatten.filter (fun c => !isSpace c) := by
    intro L
    induction L with
    | nil => rfl
    | cons a t ih =>
      simp only [List.map_cons, List.flatten_cons, List.filter_append, ih,
        filter_nonspace_strip]
  rw [hmap, reSplitHeadings_flatten]

/-- C1 counterexample: on the well-formed input `["a", "b"]` with the positive
`min_chunk_size = 500` the merge pass raises `IndexError` (`merged_chunks[-1]`
on an empty list), modelled as `none`; likewise `split` on the well-formed
text `"# a\n# b"` with positive thresholds `max = 5`, `min = 500`. -/
theorem merge_small_chunks_raises_counterexample :
    merge_small_chunks 500 ["a".toList, "b".toList] = none
      ∧ split_markdown 5 500 "# a\n# b".toList = none := by
  constructor
  · decide
  · decide

/-- C1 (amended): the merge pass returns normally iff the list has at most
one chunk or the chunks joined with `"\n\n"` exceed `min_chunk_size` in total
length; otherwise (two or more chunks whose total joined length is at most
`min_chunk_size`) everything folds into one still-undersized chunk with
nothing finalized, and `merged_chunks[-1]` raises `IndexError`.  `split`
accordingly returns normally iff the text is short enough for the
short-circuit, or the stripped heading segments number at most one, or their
joined length exceeds `min_chunk_size`. -/
theorem merge_small_chunks_isSome_iff :
    (∀ (minSize : Nat) (chunks : List Chunk),
      (merge_small_chunks minSize chunks).isSome = true
        ↔ (chunks.length ≤ 1 ∨ minSize < (joinSep chunks).length))
    ∧ (∀ (maxSize minSize : Nat) (text : List Char),
      (split_markdown maxSize minSize text).isSome = true
        ↔ (text.length ≤ maxSize ∨ (header_chunks text).length ≤ 1
            ∨ minSize < (joinSep (header_chunks text)).length)) := by
  have hmain : ∀ (minSize : Nat) (chunks : List Chunk),
      (merge_small_chunks minSize chunks).isSome = true
        ↔ (chunks.length ≤ 1 ∨ minSize < (joinSep chunks).length) := by
    intro minSize chunks
    unfold merge_small_chunks
    by_cases h1 : chunks.length ≤ 1
    · rw [if_pos h1]
      simp [h1]
    · rw [if_neg h1]
      have hne : chunks ≠ [] := by
        intro h; rw [h] at h1; simp at h1
      rw [merge_loop_isSome_iff minSize chunks.length chunks hne (Nat.le_refl _)]
      constructor
      · exact Or.inr
      · intro h
        rcases h with h | h
        · exact absurd h h1
        · exact h
  refine ⟨hmain, ?_⟩
  intro maxSize minSize text
  unfold split_markdown
  by_cases hle : text.length ≤ maxSize
  · rw [if_pos hle]; simp [hle]
  · rw [if_neg hle]
    rw [hmain minSize (header_chunks text)]
    constructor
    · exact Or.inr
    · intro h
      rcases h with h | h
      · exact absurd h hle
      · exact h

/-- C4 (confirmed): any text of length at most `max_chunk_size` is returned
as the single chunk `[text]`, unchanged and untrimmed. -/
theorem split_short_circuit (maxSize minSize : Nat) (text : List Char)
    (h : text.length ≤ maxSize) :
    split_markdown maxSize minSize text = some [text] := by
  unfold split_markdown
  rw [if_pos h]

/-- C4 witness: the spec's own example, `"short text"` with the default
thresholds. -/
theorem split_short_circuit_witness :
    split_markdown 5000 500 "short text".toList = some ["short text".toList] :=
  split_short_circuit 5000 500 ("short text".toList) (by decide)

/-- C5 counterexample: on the three undersized heading sections with
`min_chunk_size = 500` the merge pass does NOT return the single merged
chunk — everything folds forward into one chunk of 25 characters, still below
500, nothing was ever finalized, and `merged_chunks[-1]` raises `IndexError`
(modelled as `none`). -/
theorem merge_three_sections_counterexample :
    merge_small_chunks 500
      ["# A\nfoo".toList, "# B\nbar".toList, "# C\nbaz".toList] = none := by
  decide

/-- C5 (amended): with a `min_chunk_size` that each section is still under
but the total joined text exceeds (here 20, sections of 7 characters and a
25-character total), the merge pass does fold the three sections into the
single chunk `"# A\nfoo\n\n# B\nbar\n\n# C\nbaz"`; with `min_chunk_size =
500` it instead raises `IndexError` as shown in the counterexample. -/
theorem merge_three_sections_amended :
    merge_small_chunks 20
        ["# A\nfoo".toList, "# B\nbar".toList, "# C\nbaz".toList]
      = some ["# A\nfoo\n\n# B\nbar\n\n# C\nbaz".toList] := by
  decide

/-- C6 (confirmed): for a finalized oversized first chunk followed by an
undersized trailing chunk, the trailing chunk is appended backward onto the
finalized one: the result is the single chunk `s1 ++ "\n\n" ++ s2`. -/
theorem merge_tail_fold_two (minSize : Nat) (s1 s2 : Chunk)
    (h1 : minSize < s1.length) (h2 : s2.length ≤ minSize) :
    merge_small_chunks minSize [s1, s2] = some [s1 ++ nl2 ++ s2] := by
  unfold merge_small_chunks
  rw [if_neg (by simp)]
  show merge_loop minSize (1 + 1) (s1 :: s2 :: []) [] = some [s1 ++ nl2 ++ s2]
  rw [merge_loop]
  rw [if_pos h1]
  rw [merge_loop]
  rw [if_neg (Nat.not_lt.mpr h2)]
  simp [appendToLast]

/-- C6 witness: `["abc", "x"]` with `min_chunk_size = 2` merges to
`["abc\n\nx"]`. -/
theorem merge_tail_fold_two_witness :
    merge_small_chunks 2 ["abc".toList, "x".toList]
      = some ["abc\n\nx".toList] :=
  merge_tail_fold_two 2 ("abc".toList) ("x".toList) (by decide) (by decide)

/-- C2 (confirmed): whenever `split` returns two or more chunks, every chunk
except at most the last is strictly longer than `min_chunk_size` (in fact
the loop finalizes only oversized chunks, and the tail backward-merge only
lengthens the last finalized one). -/
theorem split_min_size_property (maxSize minSize : Nat) (text : List Char)
    (res : List Chunk) (h : split_markdown maxSize minSize text = some res)
    (h2 : 2 ≤ res.length) :
    ∀ s ∈ res.dropLast, minSize < s.length := by
  unfold split_markdown at h
  by_cases hle : text.length ≤ maxSize
  · rw [if_pos hle] at h
    have := Option.some.inj h
    rw [← this] at h2
    simp at h2
  · rw [if_neg hle] at h
    unfold merge_small_chunks at h
    by_cases h1 : (header_chunks text).length ≤ 1
    · rw [if_pos h1] at h
      have := Option.some.inj h
      rw [← this] at h2
      omega
    · rw [if_neg h1] at h
      have hall := merge_loop_sizes minSize (header_chunks text).length
        (header_chunks text) [] res h (by intro s hs; simp at hs)
      intro s hs
      exact hall s ((List.dropLast_sublist res).mem hs)

/-- C2 witness: a two-chunk split where both chunks beat `min_chunk_size = 3`. -/
theorem split_min_size_property_witness :
    split_markdown 5 3 "# one aaaa\n# two bbbb".toList
        = some ["# one aaaa".toList, "# two bbbb".toList]
      ∧ 3 < ("# one aaaa".toList : List Char).length :=
  ⟨by decide,
    split_min_size_property 5 3 ("# one aaaa\n# two bbbb".toList)
      ["# one aaaa".toList, "# two bbbb".toList] (by decide) (by decide)
      ("# one aaaa".toList) (by decide)⟩

/-- C3 (confirmed): concatenating the chunk contents of any `split` result,
in order, reproduces exactly the non-whitespace characters of the input in
their original order (the regex split partitions the text, stripping and the
dropped empty segments lose only whitespace, and merging inserts only the
`"\n\n"` separator). -/
theorem split_order_preservation (maxSize minSize : Nat) (text : List Char)
    (res : List Chunk) (h : split_markdown maxSize minSize text = some res) :
    res.flatten.filter (fun c => !isSpace c)
      = text.filter (fun c => !isSpace c) := by
  unfold split_markdown at h
  by_cases hle : text.length ≤ maxSize
  · rw [if_pos hle] at h
    have := Option.some.inj h
    rw [← this]
    simp
  · rw [if_neg hle] at h
    unfold merge_small_chunks at h
    by_cases h1 : (header_chunks text).length ≤ 1
    · rw [if_pos h1] at h
      have := Option.some.inj h
      rw [← this]
      exact header_chunks_content text
    · rw [if_neg h1] at h
      have := merge_loop_content minSize (header_chunks text).length
        (header_chunks text) [] res h
      rw [this]
      simpa using header_chunks_content text

/-- C3 witness: the concrete two-chunk split of C2's input preserves its
non-whitespace content. -/
theorem split_order_preservation_witness :
    (["# one aaaa".toList, "# two bbbb".toList] : List Chunk).flatten.filter
        (fun c => !isSpace c)
      = ("# one aaaa\n# two bbbb".toList).filter (fun c => !isSpace c) :=
  split_order_preservation 5 3 ("# one aaaa\n# two bbbb".toList)
    ["# one aaaa".toList, "# two bbbb".toList] (by decide)

/-- C9 counterexample: `split_markdown 3 1` on `"xx\n## "` yields the chunks
`["xx", "##"]`, and the second chunk `"##"` does not begin with 1–6 `'#'`
followed by a space — the trailing space of the bare heading line was
stripped away. -/
theorem split_bare_hash_counterexample :
    split_markdown 3 1 "xx\n## ".toList
        = some ["xx".toList, "##".toList]
      ∧ isHeadingStart ("##".toList) = false := by
  constructor
  · decide
  · decide

/-- C9 (amended): for a text longer than `max_chunk_size`, every chunk of the
split result except possibly the first begins with a run of 1–6 `'#'`
characters followed by a space, a newline, or the end of the chunk (the space
demanded by the heading pattern can be stripped away when the heading line
ends the segment's non-whitespace content, and a newline can follow the run
when merging appended text after such a bare run); merging preserves this
because forward folds prepend onto a successor and the tail fold appends. -/
theorem split_tail_chunks_headingish (maxSize minSize : Nat) (text : List Char)
    (res : List Chunk) (h : split_markdown maxSize minSize text = some res)
    (hlong : maxSize < text.length) :
    ∀ s ∈ res.tail, headingish s = true := by
  unfold split_markdown at h
  rw [if_neg (by omega)] at h
  unfold merge_small_chunks at h
  by_cases h1 : (header_chunks text).length ≤ 1
  · rw [if_pos h1] at h
    have := Option.some.inj h
    rw [← this]
    intro s hs
    exact (headingish_iff s).mpr (header_chunks_tail_headingish text s hs)
  · rw [if_neg h1] at h
    have := merge_loop_tail_headingish minSize (header_chunks text).length
      (header_chunks text) [] res h
      (by
        intro s hs
        simp only [List.nil_append] at hs
        exact header_chunks_tail_headingish text s hs)
    intro s hs
    exact (headingish_iff s).mpr (this s hs)

/-- C9 witness: splitting `"xx\n# yy"` with `max = 3`, `min = 1` gives
`["xx", "# yy"]`, whose second chunk is headingish. -/
theorem split_tail_chunks_headingish_witness :
    headingish ("# yy".toList) = true :=
  split_tail_chunks_headingish 3 1 ("xx\n# yy".toList)
    ["xx".toList, "# yy".toList] (by decide) (by decide)
    ("# yy".toList) (by decide)

/-- C10 (confirmed): a whitespace-only text longer than `max_chunk_size`
splits into zero chunks (every segment strips to nothing), and the driver's
assembly of zero chunks is the empty document. -/
theorem split_whitespace_only_empty {ε : Type} (call : Chunk → Except ε Chunk)
    (maxSize minSize : Nat) (text : List Char)
    (hlong : maxSize < text.length) (hws : ∀ c ∈ text, isSpace c = true) :
    split_markdown maxSize minSize text = some []
      ∧ translate_text call maxSize minSize text = some [] := by
  have hchunks : header_chunks text = [] := by
    unfold header_chunks
    rw [List.filter_eq_nil_iff]
    intro s hs
    rcases List.mem_map.mp hs with ⟨u, hu, rfl⟩
    have hall : ∀ c ∈ u, isSpace c = true := by
      intro c hc
      refine hws c ?_
      rw [← reSplitHeadings_flatten text]
      exact List.mem_flatten_of_mem hu hc
    have hdw : u.dropWhile isSpace = [] := List.dropWhile_eq_nil_iff.mpr hall
    simp [strip, hdw, rstrip]
  have hsplit : split_markdown maxSize minSize text = some [] := by
    unfold split_markdown
    rw [if_neg (by omega), hchunks]
    rfl
  refine ⟨hsplit, ?_⟩
  unfold translate_text
  rw [hsplit]
  rfl

/-- C10 witness: the four-character whitespace text `"   \n"` with
`max = 2` splits to zero chunks and assembles to the empty document. -/
theorem split_whitespace_only_empty_witness :
    split_markdown 2 1 "   \n".toList = some []
      ∧ translate_text (fun c => Except.ok (ε := Unit) c) 2 1 "   \n".toList
          = some [] :=
  split_whitespace_only_empty (fun c => Except.ok c) 2 1 ("   \n".toList)
    (by decide) (by decide)

/-- C7 (confirmed): when the external transform call raises for chunk `i`,
`translate_chunk` swallows the exception and returns chunk `i`'s original
text; every other chunk is processed normally, and the assembled output is
the `"\n\n"`-join of the per-chunk results with the original text at
position `i`. -/
theorem translate_chunk_error_masked {ε : Type} (call : Chunk → Except ε Chunk)
    (chunks : List Chunk) (i : Nat) (hi : i < chunks.length) (e : ε)
    (herr : call (chunks.get ⟨i, hi⟩) = Except.error e) :
    (translate_chunks call chunks).get? i = some (chunks.get ⟨i, hi⟩)
    ∧ (∀ j (hj : j < chunks.length),
        (translate_chunks call chunks).get? j
          = some (translate_chunk call (chunks.get ⟨j, hj⟩)))
    ∧ assemble_chunks (translate_chunks call chunks)
        = joinSep (chunks.map (translate_chunk call)) := by
  refine ⟨?_, ?_, rfl⟩
  · unfold translate_chunks
    rw [List.get?_map, List.get?_eq_get hi]
    show some (translate_chunk call (chunks.get ⟨i, hi⟩)) = some (chunks.get ⟨i, hi⟩)
    unfold translate_chunk
    rw [herr]
  · intro j hj
    unfold translate_chunks
    rw [List.get?_map, List.get?_eq_get hj]
    rfl

/-- C7 witness: three chunks, the call fails exactly on the middle one; the
middle slot of the output carries the original `"bb"`. -/
theorem translate_chunk_error_masked_witness :
    (translate_chunks
        (fun c => if c = "bb".toList then Except.error () else Except.ok c)
        ["aa".toList, "bb".toList, "cc".toList]).get? 1
      = some ("bb".toList) :=
  (translate_chunk_error_masked
    (fun c => if c = "bb".toList then Except.error () else Except.ok c)
    ["aa".toList, "bb".toList, "cc".toList] 1 (by decide) ()
    (by rfl)).1

theorem flatMap_congr_mem {α β : Type} (l : List α) (f g : α → List β)
    (h : ∀ a ∈ l, f a = g a) : l.flatMap f = l.flatMap g := by
  induction l with
  | nil => rfl
  | cons a t ih =>
    simp only [List.flatMap_cons]
    rw [h a (List.mem_cons_self a t), ih (fun b hb => h b (List.mem_cons_of_mem a hb))]

theorem count_sleep_pair_blocks (l : List Nat) :
    ((l.flatMap (fun i => [Ev.call i, Ev.sleep])).count Ev.sleep) = l.length := by
  induction l with
  | nil => rfl
  | cons a t ih =>
    simp only [List.flatMap_cons, List.count_append, ih]
    rw [show ([Ev.call a, Ev.sleep] : List Ev).count Ev.sleep = 1 by
      simp [List.count_cons]]
    simp [Nat.add_comm]

theorem count_sleep_call_blocks (l : List Nat) :
    ((l.flatMap (fun i => [Ev.call i])).count Ev.sleep) = 0 := by
  induction l with
  | nil => rfl
  | cons a t ih =>
    simp only [List.flatMap_cons, List.count_append, ih]
    simp [List.count_cons]

/-- C8 (confirmed): with a positive delay on `n` chunks the driver's event
trace is `call 0, sleep, call 1, sleep, …, call (n-1)`: a sleep after each of
the first `n-1` calls and none after the final call, hence exactly `n-1`
sleeps, and zero sleeps when the delay is not positive; in every case the
trace ends with the final call, never with a sleep. -/
theorem drive_sleep_pattern (delay : ℚ) (chunks : List Chunk) :
    (0 < delay → 0 < chunks.length →
      drive_events delay chunks
        = ((List.range (chunks.length - 1)).flatMap
            (fun i => [Ev.call i, Ev.sleep]))
          ++ [Ev.call (chunks.length - 1)])
    ∧ (0 < delay →
        (drive_events delay chunks).count Ev.sleep = chunks.length - 1)
    ∧ (delay ≤ 0 → (drive_events delay chunks).count Ev.sleep = 0)
    ∧ (0 < chunks.length →
        (drive_events delay chunks).getLast? = some (Ev.call (chunks.length - 1))) := by
  have hblock : ∀ (k : Nat),
      (fun i => Ev.call i ::
        if i < k + 1 - 1 ∧ 0 < delay then [Ev.sleep] else []) (k)
        = [Ev.call k] := by
    intro k
    simp
  have hstruct : 0 < delay → 0 < chunks.length →
      drive_events delay chunks
        = ((List.range (chunks.length - 1)).flatMap
            (fun i => [Ev.call i, Ev.sleep]))
          ++ [Ev.call (chunks.length - 1)] := by
    intro hd hn
    obtain ⟨k, hk⟩ : ∃ k, chunks.length = k + 1 := ⟨chunks.length - 1, by omega⟩
    unfold drive_events
    rw [hk]
    simp only [Nat.add_sub_cancel]
    rw [List.range_succ, List.flatMap_append]
    congr 1
    · refine flatMap_congr_mem _ _ _ ?_
      intro i hi
      have : i < k := List.mem_range.mp hi
      rw [if_pos ⟨by omega, hd⟩]
    · simp
  have hlast : 0 < chunks.length →
      (drive_events delay chunks).getLast? = some (Ev.call (chunks.length - 1)) := by
    intro hn
    obtain ⟨k, hk⟩ : ∃ k, chunks.length = k + 1 := ⟨chunks.length - 1, by omega⟩
    unfold drive_events
    rw [hk]
    simp only [Nat.add_sub_cancel]
    rw [List.range_succ, List.flatMap_append]
    have hb : ([k] : List Nat).flatMap
        (fun i => Ev.call i :: if i < k ∧ 0 < delay then [Ev.sleep] else [])
        = [Ev.call k] := by
      simp
    rw [hb, List.getLast?_concat]
  refine ⟨hstruct, ?_, ?_, hlast⟩
  · intro hd
    rcases Nat.eq_zero_or_pos chunks.length with h0 | hpos
    · unfold drive_events
      rw [h0]
      simp
    · rw [hstruct hd hpos, List.count_append, count_sleep_pair_blocks]
      simp [List.count_cons]
  · intro hle
    unfold drive_events
    rw [flatMap_congr_mem _ _ (fun i => [Ev.call i]) ?hcongr]
    case hcongr =>
      intro i hi
      rw [if_neg (fun hc => absurd hc.2 (not_lt.mpr hle))]
    exact count_sleep_call_blocks _

/-- C8 witness: three chunks with delay 1 give exactly two sleeps, and the
trace ends with the third call. -/
theorem drive_sleep_pattern_witness :
    (drive_events 1 ["a".toList, "b".toList, "c".toList]).count Ev.sleep = 2
      ∧ (drive_events 1 ["a".toList, "b".toList, "c".toList]).getLast?
          = some (Ev.call 2) :=
  ⟨(drive_sleep_pattern 1 ["a".toList, "b".toList, "c".toList]).2.1 (by norm_num),
   (drive_sleep_pattern 1 ["a".toList, "b".toList, "c".toList]).2.2.2 (by decide)⟩
